import Mathlib

/-!
Verification of the kalendarz weekly schedule application.

The embedding models the database-backed core of streamlit_app.py: the
Employee, Task and TaskAssignment tables, the team label allocator
next_team_label_for_day, the assignment button handler, cascade deletes,
the search handler, the week computation of the Plan tygodnia section,
and the admin password file. Strings are lists of characters; dates are
integer day numbers with day 0 a Monday, matching the weekday convention
of Python dates.
-/

namespace Kal

/-- Strings are modelled as lists of characters. -/
abbrev Str := List Char

/-- Python default strip whitespace characters (ASCII subset). -/
def pyIsSpace (c : Char) : Bool :=
  c = ' ' || c = '\t' || c = '\n' || c = '\r' || c = '\x0b' || c = '\x0c'

/-- Python str.strip: remove leading and trailing whitespace. -/
def pystrip (s : Str) : Str :=
  ((s.dropWhile pyIsSpace).reverse.dropWhile pyIsSpace).reverse

/-- Valid body of a Python integer literal after the optional sign: digits,
with single underscores allowed only between two digits. -/
def bodyOk : Str → Bool
  | [] => false
  | [c] => c.isDigit
  | c :: d :: rest => c.isDigit && (if d = '_' then bodyOk rest else bodyOk (d :: rest))

/-- Numeric value of a digit string. -/
def digitsVal (s : Str) : Nat :=
  s.foldl (fun acc c => acc * 10 + (c.toNat - 48)) 0

/-- Value of a Python int literal body, underscores removed. -/
def bodyVal (s : Str) : Option Int :=
  if bodyOk s then some (Int.ofNat (digitsVal (s.filter (fun c => c ≠ '_')))) else none

/-- Model of the Python built-in int on a string: strip whitespace, parse an
optional sign and a digit body; none where Python raises ValueError. -/
def pythonInt (s : Str) : Option Int :=
  match pystrip s with
  | [] => none
  | c :: rest =>
    if c = '+' then bodyVal rest
    else if c = '-' then (bodyVal rest).map (fun v => -v)
    else bodyVal (c :: rest)

/-- Python str.split with a single space separator, keeping empty pieces. -/
def splitOnSp : Str → List Str
  | [] => [[]]
  | c :: rest =>
    if c = ' ' then [] :: splitOnSp rest
    else
      match splitOnSp rest with
      | [] => [[c]]
      | s :: ss => (c :: s) :: ss

/-- ASCII lowercase of one character; SQLite LIKE folds case on ASCII only. -/
def lowerAscii (c : Char) : Char :=
  if 'A' ≤ c ∧ c ≤ 'Z' then Char.ofNat (c.toNat + 32) else c

/-- True when the first list starts the second one. -/
def startsList : Str → Str → Bool
  | [], _ => true
  | _ :: _, [] => false
  | a :: as, b :: bs => a = b && startsList as bs

/-- True when the first list occurs contiguously inside the second one. -/
def substrOf (needle : Str) : Str → Bool
  | [] => needle.isEmpty
  | c :: rest => startsList needle (c :: rest) || substrOf needle rest

/-- Literal case-insensitive substring containment: the claim-side reading of
the phrase filter, where the phrase is taken verbatim. -/
def containsCI (hay needle : Str) : Bool :=
  substrOf (needle.map lowerAscii) (hay.map lowerAscii)

/-- Fuel-bounded SQL LIKE matcher over a pattern and a text: a percent sign
matches any run of characters, an underscore exactly one character, and any
other pattern character matches one text character up to ASCII case folding,
as SQLite LIKE does. Each recursive call shrinks the pattern or the text, so
pattern length plus text length bounds the recursion depth. -/
def likeMatchAux : Nat → Str → Str → Bool
  | 0, _, _ => false
  | fuel + 1, p, t =>
    match p with
    | [] => t.isEmpty
    | pc :: ps =>
      if pc = '%' then
        likeMatchAux fuel ps t ||
          (match t with
           | [] => false
           | _ :: ts => likeMatchAux fuel (pc :: ps) ts)
      else
        match t with
        | [] => false
        | c :: ts =>
          (if pc = '_' then true else lowerAscii pc = lowerAscii c) && likeMatchAux fuel ps ts

/-- SQL LIKE with enough fuel for any derivation. -/
def likeMatch (p t : Str) : Bool :=
  likeMatchAux (p.length + t.length + 1) p t

/-- Model of column.ilike with the pattern percent, phrase, percent, exactly
as the handler builds it: the phrase is embedded unescaped, so percent and
underscore inside the phrase keep their LIKE wildcard meaning. -/
def phraseLike (q : Str) (hay : Str) : Bool :=
  likeMatch ('%' :: (q ++ ['%'])) hay

/-- Row of the employees table. -/
structure Employee where
  id : Nat
  first_name : Str
  last_name : Str
  phone : Option Str
deriving DecidableEq

/-- Row of the tasks table. -/
structure Task where
  id : Nat
  work_date : Int
  title : Str
  notes : Option Str
  team : Option Str
deriving DecidableEq

/-- Row of the task_assignments table. -/
structure Assignment where
  id : Nat
  task_id : Nat
  employee_id : Nat
deriving DecidableEq

/-- In-memory model of the database state. -/
structure Store where
  employees : List Employee
  tasks : List Task
  assignments : List Assignment
  nextAsgId : Nat
deriving DecidableEq

/-- The constant label prefix used by the allocator. -/
def preZ : Str := "Zespół ".toList

/-- Team label rendered from a number, modelling the final f-string. -/
def mkTeamLabel (n : Nat) : Str := preZ ++ (Nat.repr n).toList

/-- Used team numbers of a task list, modelling the set comprehension inside
next_team_label_for_day; a label with the Zespół prefix whose second
space-delimited token does not parse as an int makes Python raise, modelled
as an error value. -/
def teamUsedInts : List Task → Except Unit (List Int)
  | [] => Except.ok []
  | t :: ts =>
    match t.team with
    | none => teamUsedInts ts
    | some lbl =>
      if preZ.isPrefixOf lbl then
        match splitOnSp lbl with
        | _ :: tok :: _ =>
          match pythonInt tok with
          | some k => (teamUsedInts ts).map (fun us => k :: us)
          | none => Except.error ()
        | _ => Except.error ()
      else teamUsedInts ts

/-- Fuel-bounded form of the while loop of the allocator. -/
def firstFreeAux : Nat → Nat → List Int → Nat
  | 0, n, _ => n
  | fuel + 1, n, used => if (n : Int) ∈ used then firstFreeAux fuel (n + 1) used else n

/-- First candidate from 1 upward not in the used list; the fuel bound is
enough because the answer is at most the list length plus one. -/
def firstFree (used : List Int) : Nat :=
  firstFreeAux (used.length + 1) 1 used

/-- Model of next_team_label_for_day: filter the tasks of the day, collect
the used team numbers, and render the first free label. -/
def next_team_label_for_day (tasks : List Task) (d : Int) : Except Unit Str :=
  match teamUsedInts (tasks.filter (fun t => t.work_date = d)) with
  | Except.ok used => Except.ok (mkTeamLabel (firstFree used))
  | Except.error e => Except.error e

/-- Integer of a label exactly of the form Zespół followed by one space and a
nonempty digit string, as the claim words it; none for any other label. -/
def specTeamInt (lbl : Str) : Option Int :=
  let rest := lbl.drop preZ.length
  if preZ.isPrefixOf lbl then
    if rest.isEmpty then none
    else if rest.all Char.isDigit then some (Int.ofNat (digitsVal rest))
    else none
  else none

/-- The used set as the claim describes it: integers of well-formed labels. -/
def specUsedInts (tasks : List Task) : List Int :=
  tasks.filterMap (fun t => t.team.bind specTeamInt)

/-- True when the second space-delimited token of a label parses as a Python
int, so the allocator can consume the label without raising. -/
def tokParses (lbl : Str) : Bool :=
  match splitOnSp lbl with
  | _ :: tok :: _ => (pythonInt tok).isSome
  | _ => false

/-- Outcome of the Dodaj assignment handler. -/
inductive AssignResult where
  | added
  | alreadyAssigned
deriving DecidableEq

/-- Model of the Dodaj button handler: query for the exact pair, insert only
when absent, report the duplicate otherwise. -/
def assignHandler (s : Store) (tid eid : Nat) : Store × AssignResult :=
  if s.assignments.any (fun a => a.task_id == tid && a.employee_id == eid) then
    (s, AssignResult.alreadyAssigned)
  else
    ({ s with
        assignments := s.assignments ++ [⟨s.nextAsgId, tid, eid⟩],
        nextAsgId := s.nextAsgId + 1 }, AssignResult.added)

/-- Number of stored assignments for one (task, employee) pair. -/
def countPair (s : Store) (tid eid : Nat) : Nat :=
  (s.assignments.filter (fun a => a.task_id == tid && a.employee_id == eid)).length

/-- Model of db.delete on an Employee row: the cascade all, delete-orphan
relationship removes every assignment referencing the employee. -/
def deleteEmployee (s : Store) (eid : Nat) : Store :=
  { s with
      employees := s.employees.filter (fun e => e.id != eid),
      assignments := s.assignments.filter (fun a => a.employee_id != eid) }

/-- Model of db.delete on a Task row: the cascade all, delete-orphan
relationship removes every assignment referencing the task. -/
def deleteTask (s : Store) (tid : Nat) : Store :=
  { s with
      tasks := s.tasks.filter (fun t => t.id != tid),
      assignments := s.assignments.filter (fun a => a.task_id != tid) }

/-- Store-level failure conditions of the Data Store contract. -/
inductive StoreError where
  | referentialIntegrity
deriving DecidableEq

/-- Modelled from the spec: the repository declares the foreign keys of
task_assignments but delegates their enforcement to the external database
engine, whose code is not part of the source tree; this insert follows the
Data Store contract of the spec, rejecting an assignment whose task or
employee id is absent with the ReferentialIntegrity condition. -/
def insertAssignment (s : Store) (tid eid : Nat) : Store × Option StoreError :=
  if s.tasks.any (fun t => t.id == tid) then
    if s.employees.any (fun e => e.id == eid) then
      ({ s with
          assignments := s.assignments ++ [⟨s.nextAsgId, tid, eid⟩],
          nextAsgId := s.nextAsgId + 1 }, none)
    else (s, some StoreError.referentialIntegrity)
  else (s, some StoreError.referentialIntegrity)

/-- Phrase predicate of the search handler: title or notes matches the ilike
pattern built from the phrase; a null notes column never matches. -/
def phraseOk (q : Str) (t : Task) : Bool :=
  phraseLike q t.title ||
    (match t.notes with
     | some n => phraseLike q n
     | none => false)

/-- The phrase predicate as the claim words it: title or notes contains the
phrase case-insensitively as a literal substring. -/
def phraseLit (q : Str) (t : Task) : Bool :=
  containsCI t.title q ||
    (match t.notes with
     | some n => containsCI n q
     | none => false)

/-- True when the store links the task to the employee by some assignment. -/
def hasAssignmentTo (s : Store) (t : Task) (e : Nat) : Bool :=
  s.assignments.any (fun a => a.task_id == t.id && a.employee_id == e)

/-- Descending order on work dates, the order_by of the search handler. -/
def taskDesc (a b : Task) : Prop := b.work_date ≤ a.work_date

instance : DecidableRel taskDesc := fun a b => Int.decLe b.work_date a.work_date

instance : IsTotal Task taskDesc := ⟨fun a b => le_total b.work_date a.work_date⟩

instance : IsTrans Task taskDesc :=
  ⟨fun _ _ _ hab hbc => by unfold taskDesc at *; exact le_trans hbc hab⟩

/-- Lower date bound predicate of the search handler. -/
def fromPred (a : Int) (t : Task) : Bool := decide (a ≤ t.work_date)

/-- Upper date bound predicate of the search handler. -/
def toPred (b : Int) (t : Task) : Bool := decide (t.work_date ≤ b)

/-- The conditional lower date bound filter of the search handler. -/
def fromStage (d1 : Option Int) (l : List Task) : List Task :=
  match d1 with
  | some a => l.filter (fromPred a)
  | none => l

/-- The conditional upper date bound filter of the search handler. -/
def toStage (d2 : Option Int) (l : List Task) : List Task :=
  match d2 with
  | some b => l.filter (toPred b)
  | none => l

/-- Model of the Szukaj handler: conditional phrase and date filters, sort by
work date descending, then the employee post-filter; a zero employee id is
falsy in Python and skips the post-filter like None does. -/
def search (s : Store) (q : Str) (d1 d2 : Option Int) (emp : Option Nat) : List Task :=
  let r1 := if q.isEmpty then s.tasks else s.tasks.filter (phraseOk q)
  let r2 := fromStage d1 r1
  let r3 := toStage d2 r2
  let r4 := List.insertionSort taskDesc r3
  match emp with
  | some e => if e = 0 then r4 else r4.filter (fun t => hasAssignmentTo s t e)
  | none => r4

/-- The phrase filter seen as an unconditional predicate: an empty phrase
keeps everything. -/
def phrasePred (q : Str) (t : Task) : Bool := q.isEmpty || phraseOk q t

/-- The claim-side phrase filter as an unconditional predicate: literal
substring containment, an empty phrase keeping everything. -/
def phrasePredLit (q : Str) (t : Task) : Bool := q.isEmpty || phraseLit q t

/-- The optional lower date bound seen as an unconditional predicate. -/
def fromPredO (d1 : Option Int) (t : Task) : Bool :=
  match d1 with
  | some a => fromPred a t
  | none => true

/-- The optional upper date bound seen as an unconditional predicate. -/
def toPredO (d2 : Option Int) (t : Task) : Bool :=
  match d2 with
  | some b => toPred b t
  | none => true

/-- The optional employee filter seen as an unconditional predicate. -/
def empPredO (s : Store) (emp : Option Nat) (t : Task) : Bool :=
  match emp with
  | some e => hasAssignmentTo s t e
  | none => true

/-- The conjunction of the supplied search filters, as the claim words it:
the phrase is read as a literal substring. -/
def matchesSearch (s : Store) (q : Str) (d1 d2 : Option Int) (emp : Option Nat)
    (t : Task) : Bool :=
  phrasePredLit q t && fromPredO d1 t && toPredO d2 t && empPredO s emp t

/-- Model of the Plan tygodnia week computation: shift the reference date by
whole weeks, step back to Monday, and list five consecutive days. -/
def weekDays (r k : Int) : List Int :=
  let today := r + 7 * k
  let monday := today - today.emod 7
  (List.range 5).map (fun i => monday + i)

/-- The hard-coded default admin credential. -/
def DEFAULT_PASSWORD : Str := "admin123".toList

/-- Model of save_admin_password: the file receives the stripped password. -/
def save_admin_password (p : Str) : Str := pystrip p

/-- Model of load_admin_password over the optional file contents: a missing
file or contents that strip to empty yield the default credential. -/
def load_admin_password (file : Option Str) : Str :=
  match file with
  | none => DEFAULT_PASSWORD
  | some c => if pystrip c = [] then DEFAULT_PASSWORD else pystrip c

/-- Failure conditions of the change password handler. -/
inductive PwError where
  | authenticationError
  | emptyNewPassword
  | confirmationMismatch
deriving DecidableEq

/-- Model of the Zmień hasło handler over the credential file: wrong old
password, empty new password and mismatched confirmation each leave the file
alone and report an error; otherwise the new password is saved. -/
def changePasswordHandler (file : Option Str) (current old new conf : Str) :
    Option Str × Option PwError :=
  if old ≠ current then (file, some PwError.authenticationError)
  else if new = [] then (file, some PwError.emptyNewPassword)
  else if new ≠ conf then (file, some PwError.confirmationMismatch)
  else (some (save_admin_password new), none)

lemma dropWhile_dropWhile (p : Char → Bool) (l : Str) :
    List.dropWhile p (List.dropWhile p l) = List.dropWhile p l := by
  induction l with
  | nil => simp
  | cons a t ih =>
    by_cases h : p a
    · simp [List.dropWhile_cons, h, ih]
    · simp [List.dropWhile_cons, h]

lemma dropWhile_head_false (p : Char → Bool) (l : Str)
    (h : ∀ c, l.head? = some c → p c = false) : List.dropWhile p l = l := by
  cases l with
  | nil => rfl
  | cons a t => simp [List.dropWhile_cons, h a rfl]

lemma head_false_of_dropWhile (p : Char → Bool) (l : Str) (c : Char)
    (h : (List.dropWhile p l).head? = some c) : p c = false := by
  induction l with
  | nil => simp at h
  | cons a t ih =>
    by_cases hp : p a
    · exact ih (by simpa [List.dropWhile_cons, hp] using h)
    · rw [List.dropWhile_cons, if_neg (by simp [hp])] at h
      simp only [List.head?_cons, Option.some.injEq] at h
      rw [← h]; simp [hp]

lemma head?_of_prefix {u v : Str} (h : u <+: v) (hu : u ≠ []) : u.head? = v.head? := by
  obtain ⟨t, rfl⟩ := h
  cases u with
  | nil => exact absurd rfl hu
  | cons a u => simp

lemma pystrip_idem (l : Str) : pystrip (pystrip l) = pystrip l := by
  unfold pystrip
  set X := l.dropWhile pyIsSpace with hXdef
  set Y := X.reverse.dropWhile pyIsSpace with hYdef
  have hpre : Y.reverse <+: X := by
    have h1 : Y <:+ X.reverse := by rw [hYdef]; exact List.dropWhile_suffix _
    have h2 := (List.reverse_prefix.2 h1 : Y.reverse <+: X.reverse.reverse)
    simpa using h2
  have stepA : Y.reverse.dropWhile pyIsSpace = Y.reverse := by
    apply dropWhile_head_false
    intro c hc
    have hne : Y.reverse ≠ [] := by intro h0; rw [h0] at hc; cases hc
    have hh := head?_of_prefix hpre hne
    rw [hc] at hh
    exact head_false_of_dropWhile pyIsSpace l c (by rw [← hXdef]; exact hh.symm)
  rw [stepA, List.reverse_reverse, hYdef, dropWhile_dropWhile]

/-- Claim C9 counterexample: saving a whitespace-only password and loading it
back yields the default credential, not the stripped (empty) value the claim
demands for every string. -/
theorem c9_roundtrip_counterexample :
    load_admin_password (some (save_admin_password (" ".toList))) ≠ pystrip (" ".toList) := by
  decide

/-- Claim C9 (amended): for every password whose stripped form is nonempty,
saving it and loading it back returns the password with surrounding
whitespace trimmed; a password stripping to empty instead loads as the
default credential. -/
theorem c9_roundtrip_amended (p : Str) (h : pystrip p ≠ []) :
    load_admin_password (some (save_admin_password p)) = pystrip p := by
  show (if pystrip (pystrip p) = [] then DEFAULT_PASSWORD else pystrip (pystrip p)) = pystrip p
  rw [pystrip_idem]
  simp [h]

/-- Claim C9 witness: the round trip on a concrete padded password. -/
theorem c9_roundtrip_witness :
    load_admin_password (some (save_admin_password ("  tajne  ".toList))) =
      pystrip ("  tajne  ".toList) :=
  c9_roundtrip_amended _ (by decide)

/-- Claim C10: a missing password file or contents stripping to empty make
load_admin_password return the default credential, and saving a
whitespace-only password reverts the loaded credential to that default. -/
theorem c10_default_fallback :
    load_admin_password none = DEFAULT_PASSWORD ∧
    (∀ c : Str, pystrip c = [] → load_admin_password (some c) = DEFAULT_PASSWORD) ∧
    (∀ p : Str, pystrip p = [] →
      load_admin_password (some (save_admin_password p)) = DEFAULT_PASSWORD) := by
  refine ⟨rfl, ?_, ?_⟩
  · intro c hc
    simp [load_admin_password, hc]
  · intro p hp
    have hpp : pystrip (pystrip p) = [] := by rw [pystrip_idem]; exact hp
    simp [load_admin_password, save_admin_password, hpp]

/-- Claim C10 witness: concrete whitespace-only contents and password. -/
theorem c10_default_fallback_witness :
    load_admin_password (some ("   ".toList)) = DEFAULT_PASSWORD ∧
    load_admin_password (some (save_admin_password ("\t".toList))) = DEFAULT_PASSWORD :=
  ⟨c10_default_fallback.2.1 _ (by decide), c10_default_fallback.2.2 _ (by decide)⟩

/-- Claim C8: the handler persists the (stripped) new password exactly when
the old password matches the current one, the new password is nonempty and
it equals its confirmation; each of the three failures leaves the stored
credential unchanged and reports the matching error. -/
theorem c8_change_password (file : Option Str) (current old new conf : Str) :
    ((changePasswordHandler file current old new conf).2 = none ↔
      (old = current ∧ new ≠ [] ∧ new = conf)) ∧
    ((old = current ∧ new ≠ [] ∧ new = conf) →
      changePasswordHandler file current old new conf = (some (pystrip new), none)) ∧
    (old ≠ current →
      changePasswordHandler file current old new conf =
        (file, some PwError.authenticationError)) ∧
    (old = current → new = [] →
      changePasswordHandler file current old new conf =
        (file, some PwError.emptyNewPassword)) ∧
    (old = current → new ≠ [] → new ≠ conf →
      changePasswordHandler file current old new conf =
        (file, some PwError.confirmationMismatch)) := by
  unfold changePasswordHandler save_admin_password
  by_cases h1 : old = current
  · subst h1
    by_cases h2 : new = []
    · subst h2
      simp
    · by_cases h3 : new = conf
      · subst h3
        simp [h2]
      · simp [h2, h3]
  · simp [h1]

/-- Claim C8 witness: a successful change and a rejected wrong old password
on concrete credentials. -/
theorem c8_change_password_witness :
    changePasswordHandler (some ("stare".toList)) ("stare".toList) ("stare".toList)
        ("nowe".toList) ("nowe".toList) = (some (pystrip ("nowe".toList)), none) ∧
    changePasswordHandler (some ("stare".toList)) ("stare".toList) ("zle".toList)
        ("nowe".toList) ("nowe".toList) =
      (some ("stare".toList), some PwError.authenticationError) :=
  ⟨(c8_change_password (some ("stare".toList)) ("stare".toList) ("stare".toList)
      ("nowe".toList) ("nowe".toList)).2.1 (by decide),
   (c8_change_password (some ("stare".toList)) ("stare".toList) ("zle".toList)
      ("nowe".toList) ("nowe".toList)).2.2.1 (by decide)⟩

/-- Claim C6: for every reference date and integer week offset, the week
computation returns the five consecutive days Monday through Friday of the
calendar week containing the shifted date; day numbers count days with day 0
a Monday, so Monday means residue 0 modulo 7. -/
theorem c6_week_resolver (r k : Int) :
    ∃ m : Int, weekDays r k = [m, m + 1, m + 2, m + 3, m + 4] ∧
      m.emod 7 = 0 ∧ m ≤ r + 7 * k ∧ r + 7 * k < m + 7 := by
  unfold weekDays
  have h0 : 0 ≤ (r + 7 * k).emod 7 := Int.emod_nonneg _ (by norm_num)
  have h7 : (r + 7 * k).emod 7 < 7 := Int.emod_lt_of_pos _ (by norm_num)
  have hm : (r + 7 * k - (r + 7 * k).emod 7).emod 7 = 0 := by
    show (r + 7 * k - (r + 7 * k) % 7) % 7 = 0
    rw [Int.sub_emod, Int.emod_emod_of_dvd _ (dvd_refl 7), sub_self, Int.zero_emod]
  refine ⟨r + 7 * k - (r + 7 * k).emod 7, ?_, hm, by omega, by omega⟩
  rw [show List.range 5 = [0, 1, 2, 3, 4] from rfl]
  simp

/-- Claim C4: deleting an employee removes exactly the assignments that
reference it, and deleting a task removes exactly the assignments that
reference it, so no orphan assignment survives either delete, in every
store state. -/
theorem c4_cascade_delete (s : Store) (eid tid : Nat) (a : Assignment) :
    (a ∈ (deleteEmployee s eid).assignments ↔
      a ∈ s.assignments ∧ a.employee_id ≠ eid) ∧
    (a ∈ (deleteTask s tid).assignments ↔
      a ∈ s.assignments ∧ a.task_id ≠ tid) := by
  constructor <;> simp [deleteEmployee, deleteTask, List.mem_filter]

/-- Claim C4 witness: an assignment of another employee survives a concrete
delete. -/
theorem c4_cascade_delete_witness :
    (⟨2, 5, 7⟩ : Assignment) ∈ (deleteEmployee ⟨[], [], [⟨2, 5, 7⟩], 3⟩ 9).assignments :=
  (c4_cascade_delete ⟨[], [], [⟨2, 5, 7⟩], 3⟩ 9 0 ⟨2, 5, 7⟩).1.mpr (by decide)

/-- Claim C3: for a pair whose task and employee exist, under the documented
invariant that a pair is stored at most once, two successive assign calls
leave exactly one assignment for the pair; the second call leaves the store
unchanged and reports the duplicate. -/
theorem c3_assign_twice (s : Store) (tid eid : Nat)
    (htask : ∃ t ∈ s.tasks, t.id = tid) (hemp : ∃ e ∈ s.employees, e.id = eid)
    (hinv : countPair s tid eid ≤ 1) :
    countPair (assignHandler (assignHandler s tid eid).1 tid eid).1 tid eid = 1 ∧
    (assignHandler (assignHandler s tid eid).1 tid eid).2 = AssignResult.alreadyAssigned ∧
    (assignHandler (assignHandler s tid eid).1 tid eid).1 = (assignHandler s tid eid).1 := by
  by_cases hmem : s.assignments.any (fun a => a.task_id == tid && a.employee_id == eid)
  · have h1 : assignHandler s tid eid = (s, AssignResult.alreadyAssigned) := by
      simp only [assignHandler, if_pos hmem]
    have hone : countPair s tid eid = 1 := by
      obtain ⟨x, hx, hpx⟩ := List.any_eq_true.mp hmem
      have : 0 < (s.assignments.filter
          (fun a => a.task_id == tid && a.employee_id == eid)).length :=
        List.length_pos_of_mem (List.mem_filter.mpr ⟨hx, hpx⟩)
      unfold countPair at hinv ⊢
      omega
    rw [h1]
    rw [h1]
    exact ⟨hone, rfl, rfl⟩
  · have h1 : assignHandler s tid eid =
        ({ s with
            assignments := s.assignments ++ [⟨s.nextAsgId, tid, eid⟩],
            nextAsgId := s.nextAsgId + 1 }, AssignResult.added) := by
      simp only [assignHandler, if_neg hmem]
    have hzero : countPair s tid eid = 0 := by
      unfold countPair
      rw [List.length_eq_zero]
      rw [List.filter_eq_nil_iff]
      intro a ha
      have := List.any_eq_false.mp (Bool.of_not_eq_true hmem) a ha
      simpa using this
    have hmem1 : (s.assignments ++ [(⟨s.nextAsgId, tid, eid⟩ : Assignment)]).any
        (fun a => a.task_id == tid && a.employee_id == eid) = true := by
      simp
    rw [h1]
    have h2 : assignHandler
        ({ s with
            assignments := s.assignments ++ [⟨s.nextAsgId, tid, eid⟩],
            nextAsgId := s.nextAsgId + 1 }) tid eid =
        ({ s with
            assignments := s.assignments ++ [⟨s.nextAsgId, tid, eid⟩],
            nextAsgId := s.nextAsgId + 1 }, AssignResult.alreadyAssigned) := by
      simp only [assignHandler]
      rw [if_pos hmem1]
    rw [h2]
    refine ⟨?_, rfl, rfl⟩
    unfold countPair at hzero ⊢
    simp only [List.filter_append, List.length_append, hzero]
    simp

/-- Claim C3 witness: two assign calls on a concrete one-task one-employee
store. -/
theorem c3_assign_twice_witness :
    countPair (assignHandler (assignHandler
        ⟨[⟨4, "Jan".toList, "Kowalski".toList, none⟩],
         [⟨6, 0, "Dach".toList, none, none⟩], [], 1⟩ 6 4).1 6 4).1 6 4 = 1 ∧
    (assignHandler (assignHandler
        ⟨[⟨4, "Jan".toList, "Kowalski".toList, none⟩],
         [⟨6, 0, "Dach".toList, none, none⟩], [], 1⟩ 6 4).1 6 4).2 =
      AssignResult.alreadyAssigned ∧
    (assignHandler (assignHandler
        ⟨[⟨4, "Jan".toList, "Kowalski".toList, none⟩],
         [⟨6, 0, "Dach".toList, none, none⟩], [], 1⟩ 6 4).1 6 4).1 =
      (assignHandler
        ⟨[⟨4, "Jan".toList, "Kowalski".toList, none⟩],
         [⟨6, 0, "Dach".toList, none, none⟩], [], 1⟩ 6 4).1 :=
  c3_assign_twice _ 6 4 (by decide) (by decide) (by decide)

/-- Claim C7 (store insert modelled from the spec): creating an assignment
whose task id or employee id is absent fails with ReferentialIntegrity and
inserts nothing. -/
theorem c7_referential_integrity (s : Store) (tid eid : Nat)
    (h : (∀ t ∈ s.tasks, t.id ≠ tid) ∨ (∀ e ∈ s.employees, e.id ≠ eid)) :
    insertAssignment s tid eid = (s, some StoreError.referentialIntegrity) := by
  unfold insertAssignment
  rcases h with h | h
  · have ht : s.tasks.any (fun t => t.id == tid) = false := by
      simp only [List.any_eq_false, beq_iff_eq]
      exact h
    simp [ht]
  · have he : s.employees.any (fun e => e.id == eid) = false := by
      simp only [List.any_eq_false, beq_iff_eq]
      exact h
    by_cases ht : s.tasks.any (fun t => t.id == tid)
    · simp [ht, he]
    · simp [ht]

/-- Claim C7 witness: inserting into an empty store fails. -/
theorem c7_referential_integrity_witness :
    insertAssignment ⟨[], [], [], 0⟩ 1 2 = (⟨[], [], [], 0⟩, some StoreError.referentialIntegrity) :=
  c7_referential_integrity ⟨[], [], [], 0⟩ 1 2 (Or.inl (by simp))

lemma likeMatchAux_nil (fuel : Nat) (t : Str) (h : 0 < fuel) :
    likeMatchAux fuel [] t = t.isEmpty := by
  cases fuel with
  | zero => omega
  | succ f => rfl

lemma likeMatchAux_pct : ∀ (fuel : Nat) (t : Str), 1 + t.length < fuel →
    likeMatchAux fuel ['%'] t = true := by
  intro fuel
  induction fuel with
  | zero =>
    intro t ht
    omega
  | succ f ih =>
    intro t ht
    cases t with
    | nil =>
      simp only [likeMatchAux, if_pos rfl]
      rw [likeMatchAux_nil f [] (by simp at ht; omega)]
      rfl
    | cons c ts =>
      have hrec := ih ts (by simp at ht ⊢; omega)
      simp only [likeMatchAux, if_pos rfl]
      rw [hrec]
      simp

lemma startsList_nil (n : Str) : startsList n [] = n.isEmpty := by
  cases n <;> rfl

lemma likeMatchAux_lit : ∀ (q : Str), '%' ∉ q → '_' ∉ q →
    ∀ (fuel : Nat) (t : Str), q.length + 1 + t.length < fuel →
    likeMatchAux fuel (q ++ ['%']) t = startsList (q.map lowerAscii) (t.map lowerAscii) := by
  intro q
  induction q with
  | nil =>
    intro _ _ fuel t hb
    rw [List.nil_append, likeMatchAux_pct fuel t (by simpa using hb)]
    simp [startsList]
  | cons a q2 ih =>
    intro h1 h2 fuel t hb
    have ha1 : a ≠ '%' := fun he => h1 (he ▸ List.mem_cons_self a q2)
    have ha2 : a ≠ '_' := fun he => h2 (he ▸ List.mem_cons_self a q2)
    cases fuel with
    | zero => omega
    | succ f =>
      cases t with
      | nil =>
        simp only [List.cons_append, likeMatchAux, if_neg ha1]
        simp [startsList]
      | cons c ts =>
        have hrec := ih (fun hm => h1 (List.mem_cons_of_mem a hm))
          (fun hm => h2 (List.mem_cons_of_mem a hm)) f ts (by simp at hb ⊢; omega)
        simp only [List.cons_append, likeMatchAux, if_neg ha1, if_neg ha2]
        rw [hrec]
        simp [startsList]

lemma likeMatchAux_wrap : ∀ (t : Str) (q : Str), '%' ∉ q → '_' ∉ q →
    ∀ fuel : Nat, q.length + 2 + t.length < fuel →
    likeMatchAux fuel ('%' :: (q ++ ['%'])) t = substrOf (q.map lowerAscii) (t.map lowerAscii) := by
  intro t
  induction t with
  | nil =>
    intro q h1 h2 fuel hb
    cases fuel with
    | zero => omega
    | succ f =>
      simp only [likeMatchAux, if_pos rfl]
      rw [likeMatchAux_lit q h1 h2 f [] (by simp at hb ⊢; omega)]
      simp [startsList_nil, substrOf]
  | cons c ts ih =>
    intro q h1 h2 fuel hb
    cases fuel with
    | zero => omega
    | succ f =>
      have hfirst := likeMatchAux_lit q h1 h2 f (c :: ts) (by simp at hb ⊢; omega)
      have hrest := ih q h1 h2 f (by simp at hb ⊢; omega)
      simp only [likeMatchAux, if_pos rfl]
      rw [hfirst, hrest]
      simp [substrOf]

lemma phraseLike_eq_containsCI {q : Str} (h1 : '%' ∉ q) (h2 : '_' ∉ q) (hay : Str) :
    phraseLike q hay = containsCI hay q := by
  unfold phraseLike likeMatch containsCI
  apply likeMatchAux_wrap hay q h1 h2
  simp only [List.length_cons, List.length_append]
  omega

lemma phraseOk_eq_lit {q : Str} (h1 : '%' ∉ q) (h2 : '_' ∉ q) (t : Task) :
    phraseOk q t = phraseLit q t := by
  unfold phraseOk phraseLit
  rw [phraseLike_eq_containsCI h1 h2]
  cases hn : t.notes with
  | none => rfl
  | some n => simp [phraseLike_eq_containsCI h1 h2]

lemma phrasePred_eq_lit {q : Str} (h1 : '%' ∉ q) (h2 : '_' ∉ q) (t : Task) :
    phrasePredLit q t = phrasePred q t := by
  unfold phrasePredLit phrasePred
  rw [phraseOk_eq_lit h1 h2]

lemma phraseStage_eq (q : Str) (l : List Task) :
    (if q.isEmpty then l else l.filter (phraseOk q)) = l.filter (phrasePred q) := by
  by_cases hq : q.isEmpty
  · rw [if_pos hq]
    have hp : phrasePred q = fun _ => true := by
      funext t
      simp [phrasePred, hq]
    rw [hp, List.filter_true]
  · rw [if_neg hq]
    apply List.filter_congr
    intro a _
    simp [phrasePred, hq]

lemma fromStage_eq (d1 : Option Int) (l : List Task) :
    fromStage d1 l = l.filter (fromPredO d1) := by
  cases d1 with
  | none =>
    show l = l.filter (fromPredO none)
    have hp : fromPredO none = fun _ => true := rfl
    rw [hp, List.filter_true]
  | some a => rfl

lemma toStage_eq (d2 : Option Int) (l : List Task) :
    toStage d2 l = l.filter (toPredO d2) := by
  cases d2 with
  | none =>
    show l = l.filter (toPredO none)
    have hp : toPredO none = fun _ => true := rfl
    rw [hp, List.filter_true]
  | some b => rfl

/-- Claim C5 counterexample: the handler embeds the phrase unescaped into the
ilike pattern, so the phrase consisting of one underscore is a LIKE wildcard
matching any single character: the task titled Ala is returned although its
title and notes contain no literal underscore, refuting the substring
description of the phrase filter. -/
theorem c5_search_counterexample :
    ¬ ((search ⟨[], [⟨1, 0, "Ala".toList, none, none⟩], [], 1⟩
          ("_".toList) none none none).Perm
        ((⟨[], [⟨1, 0, "Ala".toList, none, none⟩], [], 1⟩ : Store).tasks.filter
          (matchesSearch ⟨[], [⟨1, 0, "Ala".toList, none, none⟩], [], 1⟩
            ("_".toList) none none none)) ∧
      List.Sorted taskDesc
        (search ⟨[], [⟨1, 0, "Ala".toList, none, none⟩], [], 1⟩
          ("_".toList) none none none)) := by
  intro h
  have hmem : (⟨1, 0, "Ala".toList, none, none⟩ : Task) ∈
      search ⟨[], [⟨1, 0, "Ala".toList, none, none⟩], [], 1⟩ ("_".toList) none none none := by
    decide
  have h2 := h.1.mem_iff.mp hmem
  exact absurd h2 (by decide)

/-- Claim C5 (amended): for phrases containing neither of the LIKE wildcard
characters percent and underscore, the search handler returns exactly the
tasks satisfying the conjunction of the supplied filters — phrase contained
case-insensitively in title or notes as a literal substring, inclusive date
bounds, employee reference as a post-filter — and the result is ordered by
work date descending; with no filters supplied every task is returned in
that order. A phrase containing a wildcard is instead interpreted by SQL
LIKE. Employee rows carry nonzero ids, whence the hypothesis on the
employee filter. -/
theorem c5_search (s : Store) (q : Str) (d1 d2 : Option Int) (emp : Option Nat)
    (hemp : emp ≠ some 0) (hq1 : '%' ∉ q) (hq2 : '_' ∉ q) :
    (search s q d1 d2 emp).Perm (s.tasks.filter (matchesSearch s q d1 d2 emp)) ∧
    List.Sorted taskDesc (search s q d1 d2 emp) := by
  rcases emp with _ | e
  · simp only [search, phraseStage_eq, fromStage_eq, toStage_eq]
    refine ⟨(List.perm_insertionSort _ _).trans ?_, List.sorted_insertionSort _ _⟩
    apply List.Perm.of_eq
    simp only [List.filter_filter]
    apply List.filter_congr
    intro a _
    simp only [matchesSearch, empPredO, Bool.and_true]
    rw [phrasePred_eq_lit hq1 hq2 a]
    cases hP : phrasePred q a <;> cases hF : fromPredO d1 a <;> cases hT : toPredO d2 a <;>
      simp [hP, hF, hT]
  · have he : e ≠ 0 := fun h0 => hemp (by rw [h0])
    simp only [search, phraseStage_eq, fromStage_eq, toStage_eq, if_neg he]
    refine ⟨((List.perm_insertionSort _ _).filter _).trans ?_,
      List.Pairwise.sublist (List.filter_sublist _) (List.sorted_insertionSort _ _)⟩
    apply List.Perm.of_eq
    simp only [List.filter_filter]
    apply List.filter_congr
    intro a _
    simp only [matchesSearch, empPredO]
    rw [phrasePred_eq_lit hq1 hq2 a]
    cases hP : phrasePred q a <;> cases hF : fromPredO d1 a <;> cases hT : toPredO d2 a <;>
      cases hH : hasAssignmentTo s a e <;> simp [hP, hF, hT, hH]

lemma digit_ne {c : Char} (h : c.isDigit = true) (d : Char) (hd : d.isDigit = false) :
    c ≠ d := by
  intro he
  rw [he, hd] at h
  cases h

lemma digit_not_space {c : Char} (h : c.isDigit = true) : pyIsSpace c = false := by
  have h1 := digit_ne h ' ' (by decide)
  have h2 := digit_ne h '\t' (by decide)
  have h3 := digit_ne h '\n' (by decide)
  have h4 := digit_ne h '\r' (by decide)
  have h5 := digit_ne h '\x0b' (by decide)
  have h6 := digit_ne h '\x0c' (by decide)
  simp [pyIsSpace, h1, h2, h3, h4, h5, h6]

lemma dropWhile_eq_self_of_all {p : Char → Bool} {l : Str} (h : ∀ c ∈ l, p c = false) :
    l.dropWhile p = l := by
  cases l with
  | nil => rfl
  | cons a t => simp [List.dropWhile_cons, h a (List.mem_cons_self a t)]

lemma pystrip_of_no_space {l : Str} (h : ∀ c ∈ l, pyIsSpace c = false) : pystrip l = l := by
  unfold pystrip
  rw [dropWhile_eq_self_of_all h,
    dropWhile_eq_self_of_all (fun c hc => h c (List.mem_reverse.mp hc)),
    List.reverse_reverse]

lemma bodyOk_of_digits : ∀ ds : Str, ds ≠ [] → ds.all Char.isDigit = true → bodyOk ds = true
  | [], h, _ => absurd rfl h
  | [c], _, hall => by
    simp only [List.all_cons, List.all_nil, Bool.and_true] at hall
    simp [bodyOk, hall]
  | c :: d :: rest, _, hall => by
    simp only [List.all_cons, Bool.and_eq_true] at hall
    obtain ⟨hc, hd, hrest⟩ := hall
    have hdu : d ≠ '_' := digit_ne hd '_' (by decide)
    have ih := bodyOk_of_digits (d :: rest) (by simp)
      (by simp only [List.all_cons, Bool.and_eq_true]; exact ⟨hd, hrest⟩)
    simp [bodyOk, hc, hdu, ih]

lemma filter_underscore_of_digits {ds : Str} (hall : ds.all Char.isDigit = true) :
    ds.filter (fun c => c ≠ '_') = ds := by
  rw [List.filter_eq_self]
  intro a ha
  have hd := List.all_eq_true.mp hall a ha
  simp [digit_ne hd '_' (by decide)]

lemma pythonInt_digits : ∀ ds : Str, ds ≠ [] → ds.all Char.isDigit = true →
    pythonInt ds = some (Int.ofNat (digitsVal ds))
  | [], h, _ => absurd rfl h
  | c :: rest, _, hall => by
    have hnos : ∀ x ∈ c :: rest, pyIsSpace x = false := fun x hx =>
      digit_not_space (List.all_eq_true.mp hall x hx)
    have hc : c.isDigit = true := List.all_eq_true.mp hall c (List.mem_cons_self c rest)
    have hplus : c ≠ '+' := digit_ne hc '+' (by decide)
    have hminus : c ≠ '-' := digit_ne hc '-' (by decide)
    unfold pythonInt
    rw [pystrip_of_no_space hnos]
    show (if c = '+' then bodyVal rest
      else if c = '-' then (bodyVal rest).map (fun v => -v)
      else bodyVal (c :: rest)) = some (Int.ofNat (digitsVal (c :: rest)))
    rw [if_neg hplus, if_neg hminus]
    unfold bodyVal
    rw [bodyOk_of_digits (c :: rest) (by simp) hall, if_pos rfl,
      filter_underscore_of_digits hall]

lemma splitOnSp_no_space : ∀ {l : Str}, (∀ c ∈ l, c ≠ ' ') → splitOnSp l = [l]
  | [], _ => rfl
  | c :: rest, h => by
    have hc : c ≠ ' ' := h c (List.mem_cons_self c rest)
    have ih := splitOnSp_no_space (fun x hx => h x (List.mem_cons_of_mem c hx))
    simp only [splitOnSp]
    rw [if_neg hc, ih]

lemma splitOnSp_append : ∀ {a : Str} (b : Str), (∀ c ∈ a, c ≠ ' ') →
    splitOnSp (a ++ ' ' :: b) = a :: splitOnSp b
  | [], b, _ => by simp [splitOnSp]
  | c :: a2, b, h => by
    have hc : c ≠ ' ' := h c (List.mem_cons_self c a2)
    have ih := @splitOnSp_append a2 b (fun x hx => h x (List.mem_cons_of_mem c hx))
    simp only [List.cons_append, List.append_eq, splitOnSp]
    rw [if_neg hc, ih]

lemma filter_ge_mono (used : List Int) (n : Int) :
    (used.filter (fun m => n + 1 ≤ m)).length ≤ (used.filter (fun m => n ≤ m)).length := by
  induction used with
  | nil => simp
  | cons a t ih =>
    by_cases h1 : n + 1 ≤ a
    · have h2 : n ≤ a := by omega
      simp [List.filter_cons, h1, h2]; omega
    · by_cases h2 : n ≤ a
      · simp [List.filter_cons, h1, h2]; omega
      · simp [List.filter_cons, h1, h2]; omega

lemma filter_ge_strict (used : List Int) (n : Int) (hmem : n ∈ used) :
    (used.filter (fun m => n + 1 ≤ m)).length < (used.filter (fun m => n ≤ m)).length := by
  induction used with
  | nil => simp at hmem
  | cons a t ih =>
    rcases List.mem_cons.mp hmem with rfl | hmem2
    · have h1 : ¬(n + 1 ≤ n) := by omega
      have h2 : n ≤ n := le_refl n
      have hmono := filter_ge_mono t n
      simp [List.filter_cons, h1, h2]; omega
    · by_cases h1 : n + 1 ≤ a
      · have h2 : n ≤ a := by omega
        have hih := ih hmem2
        simp [List.filter_cons, h1, h2]; omega
      · by_cases h2 : n ≤ a
        · have hih := ih hmem2
          simp [List.filter_cons, h1, h2]; omega
        · have hih := ih hmem2
          simp [List.filter_cons, h1, h2]; omega

lemma firstFreeAux_spec : ∀ (fuel n : Nat) (used : List Int),
    (used.filter (fun m => (n : Int) ≤ m)).length ≤ fuel →
    (((firstFreeAux fuel n used : Nat) : Int) ∉ used ∧ n ≤ firstFreeAux fuel n used ∧
      ∀ m : Nat, n ≤ m → m < firstFreeAux fuel n used → (m : Int) ∈ used) := by
  intro fuel
  induction fuel with
  | zero =>
    intro n used hb
    simp only [firstFreeAux]
    refine ⟨?_, le_refl n, fun m hm1 hm2 => by omega⟩
    intro hmem
    have hf : (n : Int) ∈ used.filter (fun m => (n : Int) ≤ m) :=
      List.mem_filter.mpr ⟨hmem, by simp⟩
    have := List.length_pos_of_mem hf
    omega
  | succ fuel ih =>
    intro n used hb
    simp only [firstFreeAux]
    by_cases hmem : (n : Int) ∈ used
    · rw [if_pos hmem]
      have hstrict := filter_ge_strict used (n : Int) hmem
      have hcast : (((n + 1 : Nat)) : Int) = (n : Int) + 1 := by push_cast; ring
      have hbound : (used.filter (fun m => ((n + 1 : Nat) : Int) ≤ m)).length ≤ fuel := by
        simp only [hcast]
        omega
      obtain ⟨ha, hle, hbelow⟩ := ih (n + 1) used hbound
      refine ⟨ha, by omega, ?_⟩
      intro m hm1 hm2
      by_cases hm : m = n
      · subst hm
        exact hmem
      · exact hbelow m (by omega) hm2
    · rw [if_neg hmem]
      exact ⟨hmem, le_refl n, fun m hm1 hm2 => by omega⟩

lemma firstFree_spec (used : List Int) :
    ((firstFree used : Int) ∉ used ∧ 1 ≤ firstFree used ∧
      ∀ m : Nat, 1 ≤ m → m < firstFree used → (m : Int) ∈ used) := by
  have hb : (used.filter (fun m => ((1 : Nat) : Int) ≤ m)).length ≤ used.length + 1 := by
    have := List.length_filter_le (fun m => ((1 : Nat) : Int) ≤ m) used
    omega
  exact firstFreeAux_spec (used.length + 1) 1 used hb

lemma teamUsedInts_ok_of_wf : ∀ ts : List Task,
    (∀ t ∈ ts, ∀ lbl, t.team = some lbl → preZ.isPrefixOf lbl = true →
      (specTeamInt lbl).isSome = true) →
    ∃ us : List Int, teamUsedInts ts = Except.ok us ∧
      ∀ k : Int, k ∈ us ↔ k ∈ specUsedInts ts := by
  intro ts
  induction ts with
  | nil =>
    intro _
    exact ⟨[], rfl, by simp [specUsedInts]⟩
  | cons t ts ih =>
    intro h
    obtain ⟨us, hok, hiff⟩ := ih (fun t2 ht2 => h t2 (List.mem_cons_of_mem t ht2))
    cases hteam : t.team with
    | none =>
      refine ⟨us, ?_, ?_⟩
      · simp only [teamUsedInts, hteam, hok]
      · intro k
        rw [hiff k]
        simp [specUsedInts, List.filterMap_cons, hteam]
    | some lbl =>
      cases hpre : preZ.isPrefixOf lbl with
      | false =>
        refine ⟨us, ?_, ?_⟩
        · simp only [teamUsedInts, hteam, hpre, Bool.false_eq_true, if_false, hok]
        · intro k
          rw [hiff k]
          have hspec : specTeamInt lbl = none := by
            simp [specTeamInt, hpre]
          simp [specUsedInts, List.filterMap_cons, hteam, hspec]
      | true =>
        have hsome := h t (List.mem_cons_self t ts) lbl hteam hpre
        obtain ⟨k, hk⟩ := Option.isSome_iff_exists.mp hsome
        obtain ⟨ds, hds⟩ := List.isPrefixOf_iff_prefix.mp hpre
        have hrest : lbl.drop preZ.length = ds := by
          rw [← hds]
          exact List.drop_left preZ ds
        simp only [specTeamInt, hrest, hpre, if_true] at hk
        cases hde : ds.isEmpty with
        | true => simp [hde] at hk
        | false =>
          simp only [hde, Bool.false_eq_true, if_false] at hk
          cases hda : ds.all Char.isDigit with
          | false => simp [hda] at hk
          | true =>
            simp only [hda, if_true, Option.some.injEq] at hk
            subst hk
            have hds_ne : ds ≠ [] := by
              intro h0
              rw [h0] at hde
              cases hde
            have hdsp : ∀ x ∈ ds, x ≠ ' ' := fun x hx =>
              digit_ne (List.all_eq_true.mp hda x hx) ' ' (by decide)
            have hnsp : ∀ x ∈ "Zespół".toList, x ≠ ' ' := by decide
            have hlbl2 : lbl = "Zespół".toList ++ (' ' :: ds) := by
              rw [← hds, show preZ = "Zespół".toList ++ [' '] from rfl, List.append_assoc]
              rfl
            have hsplit : splitOnSp lbl = ["Zespół".toList, ds] := by
              rw [hlbl2, splitOnSp_append ds hnsp, splitOnSp_no_space hdsp]
            have hpy : pythonInt ds = some (Int.ofNat (digitsVal ds)) :=
              pythonInt_digits ds hds_ne hda
            refine ⟨Int.ofNat (digitsVal ds) :: us, ?_, ?_⟩
            · simp only [teamUsedInts, hteam, hpre, if_true, hsplit, hpy, hok, Except.map]
            · intro k2
              have hspec : specTeamInt lbl = some (Int.ofNat (digitsVal ds)) := by
                simp [specTeamInt, hrest, hpre, hde, hda]
              simp only [specUsedInts, List.filterMap_cons, hteam, Option.some_bind, hspec,
                List.mem_cons]
              rw [hiff k2]
              simp [specUsedInts]

lemma teamUsedInts_ok_of_tok : ∀ ts : List Task,
    (∀ t ∈ ts, ∀ lbl, t.team = some lbl → preZ.isPrefixOf lbl = true →
      tokParses lbl = true) →
    ∃ us : List Int, teamUsedInts ts = Except.ok us := by
  intro ts
  induction ts with
  | nil =>
    intro _
    exact ⟨[], rfl⟩
  | cons t ts ih =>
    intro h
    obtain ⟨us, hok⟩ := ih (fun t2 ht2 => h t2 (List.mem_cons_of_mem t ht2))
    cases hteam : t.team with
    | none => exact ⟨us, by simp only [teamUsedInts, hteam, hok]⟩
    | some lbl =>
      cases hpre : preZ.isPrefixOf lbl with
      | false =>
        exact ⟨us, by simp only [teamUsedInts, hteam, hpre, Bool.false_eq_true, if_false, hok]⟩
      | true =>
        have ht := h t (List.mem_cons_self t ts) lbl hteam hpre
        cases hsp : splitOnSp lbl with
        | nil => simp [tokParses, hsp] at ht
        | cons s1 rest2 =>
          cases rest2 with
          | nil => simp [tokParses, hsp] at ht
          | cons tok rest3 =>
            simp only [tokParses, hsp] at ht
            obtain ⟨k, hpy⟩ := Option.isSome_iff_exists.mp ht
            exact ⟨k :: us,
              by simp only [teamUsedInts, hteam, hpre, if_true, hsp, hpy, hok, Except.map]⟩

/-- Claim C5 witness: a search over a concrete two-task store with a date
lower bound and an employee filter, with a wildcard-free (empty) phrase. -/
theorem c5_search_witness :
    (search ⟨[⟨4, "Jan".toList, "Kowalski".toList, none⟩],
        [⟨1, 10, "Dach".toList, none, none⟩, ⟨2, 20, "Okna".toList, none, none⟩],
        [⟨1, 2, 4⟩], 2⟩ [] (some 15) none (some 4)).Perm
      ((⟨[⟨4, "Jan".toList, "Kowalski".toList, none⟩],
        [⟨1, 10, "Dach".toList, none, none⟩, ⟨2, 20, "Okna".toList, none, none⟩],
        [⟨1, 2, 4⟩], 2⟩ : Store).tasks.filter
        (matchesSearch ⟨[⟨4, "Jan".toList, "Kowalski".toList, none⟩],
          [⟨1, 10, "Dach".toList, none, none⟩, ⟨2, 20, "Okna".toList, none, none⟩],
          [⟨1, 2, 4⟩], 2⟩ [] (some 15) none (some 4))) ∧
    List.Sorted taskDesc
      (search ⟨[⟨4, "Jan".toList, "Kowalski".toList, none⟩],
        [⟨1, 10, "Dach".toList, none, none⟩, ⟨2, 20, "Okna".toList, none, none⟩],
        [⟨1, 2, 4⟩], 2⟩ [] (some 15) none (some 4)) :=
  c5_search _ [] (some 15) none (some 4) (by decide) (by decide) (by decide)

/-- Claim C1 counterexample: on a day whose single task carries the label
Zespół 1 x — not of the form Zespół int — the code still parses the 1 and
returns Zespół 2, while the claim demands the smallest positive integer
outside the (empty) set of well-formed labels, namely 1. -/
theorem c1_next_team_label_counterexample :
    ¬ ∃ n : Nat,
      next_team_label_for_day [⟨1, 0, "Dach".toList, none, some ("Zespół 1 x".toList)⟩] 0 =
        Except.ok (mkTeamLabel n) ∧
      1 ≤ n ∧
      ((n : Int) ∉ specUsedInts (List.filter (fun t => t.work_date = 0)
        [⟨1, 0, "Dach".toList, none, some ("Zespół 1 x".toList)⟩])) ∧
      ∀ m : Nat, 1 ≤ m → m < n →
        (m : Int) ∈ specUsedInts (List.filter (fun t => t.work_date = 0)
          [⟨1, 0, "Dach".toList, none, some ("Zespół 1 x".toList)⟩]) := by
  rintro ⟨n, hres, h1, _, hbelow⟩
  have hval : next_team_label_for_day
      [⟨1, 0, "Dach".toList, none, some ("Zespół 1 x".toList)⟩] 0 =
      Except.ok ("Zespół 2".toList) := rfl
  rw [hval] at hres
  injection hres with h2
  have hne1 : n ≠ 1 := by
    intro h0
    rw [h0] at h2
    exact absurd h2 (by decide)
  have hin := hbelow 1 (le_refl 1) (by omega)
  exact absurd hin (by decide)

/-- Claim C1 (amended): when every label of the day that begins with the
Zespół prefix is exactly of the form Zespół int, the allocator succeeds and
returns Zespół n for the smallest positive n outside the set of integers of
the well-formed labels of the day; in particular a day with zero tasks gives
Zespół 1 and a day with labels Zespół 1 and Zespół 3 gives Zespół 2. -/
theorem c1_next_team_label :
    (∀ (tasks : List Task) (d : Int),
      (∀ t ∈ tasks.filter (fun t => t.work_date = d), ∀ lbl, t.team = some lbl →
        preZ.isPrefixOf lbl = true → (specTeamInt lbl).isSome = true) →
      ∃ n : Nat, next_team_label_for_day tasks d = Except.ok (mkTeamLabel n) ∧
        1 ≤ n ∧
        ((n : Int) ∉ specUsedInts (tasks.filter (fun t => t.work_date = d))) ∧
        ∀ m : Nat, 1 ≤ m → m < n →
          (m : Int) ∈ specUsedInts (tasks.filter (fun t => t.work_date = d))) ∧
    next_team_label_for_day [] 0 = Except.ok ("Zespół 1".toList) ∧
    next_team_label_for_day
      [⟨1, 0, "Market".toList, none, some ("Zespół 1".toList)⟩,
       ⟨2, 0, "Szkoła".toList, none, some ("Zespół 3".toList)⟩] 0 =
      Except.ok ("Zespół 2".toList) := by
  refine ⟨?_, rfl, rfl⟩
  intro tasks d hyp
  obtain ⟨us, hok, hiff⟩ :=
    teamUsedInts_ok_of_wf (tasks.filter (fun t => t.work_date = d)) hyp
  obtain ⟨hnot, h1, hbelow⟩ := firstFree_spec us
  refine ⟨firstFree us, ?_, h1, ?_, ?_⟩
  · unfold next_team_label_for_day
    rw [hok]
  · intro hmem
    exact hnot ((hiff _).mpr hmem)
  · intro m hm1 hm2
    exact (hiff _).mp (hbelow m hm1 hm2)

/-- Claim C1 witness: the amended theorem applied to the concrete day with
labels Zespół 1 and Zespół 3. -/
theorem c1_next_team_label_witness :
    ∃ n : Nat,
      next_team_label_for_day
        [⟨1, 0, "Market".toList, none, some ("Zespół 1".toList)⟩,
         ⟨2, 0, "Szkoła".toList, none, some ("Zespół 3".toList)⟩] 0 =
        Except.ok (mkTeamLabel n) ∧
      1 ≤ n ∧
      ((n : Int) ∉ specUsedInts (List.filter (fun t => t.work_date = 0)
        [⟨1, 0, "Market".toList, none, some ("Zespół 1".toList)⟩,
         ⟨2, 0, "Szkoła".toList, none, some ("Zespół 3".toList)⟩])) ∧
      ∀ m : Nat, 1 ≤ m → m < n →
        (m : Int) ∈ specUsedInts (List.filter (fun t => t.work_date = 0)
          [⟨1, 0, "Market".toList, none, some ("Zespół 1".toList)⟩,
           ⟨2, 0, "Szkoła".toList, none, some ("Zespół 3".toList)⟩]) :=
  c1_next_team_label.1
    [⟨1, 0, "Market".toList, none, some ("Zespół 1".toList)⟩,
     ⟨2, 0, "Szkoła".toList, none, some ("Zespół 3".toList)⟩] 0 (by decide)

/-- Claim C2 counterexample: a label beginning with the Zespół prefix whose
second token is not an integer makes the allocator raise instead of ignoring
the label as the claim demands. -/
theorem c2_no_failure_counterexample :
    next_team_label_for_day [⟨1, 0, "Dach".toList, none, some ("Zespół x".toList)⟩] 0 =
      Except.error () := rfl

/-- Claim C2 (amended): the allocator terminates and returns normally exactly
on days where every label beginning with the Zespół prefix has an
int-parseable second space token; null labels and labels without the prefix
are skipped and never cause a failure, but a prefixed label with an
unparsable token raises. -/
theorem c2_label_tolerance (tasks : List Task) (d : Int)
    (h : ∀ t ∈ tasks.filter (fun t => t.work_date = d), ∀ lbl, t.team = some lbl →
      preZ.isPrefixOf lbl = true → tokParses lbl = true) :
    ∃ lab : Str, next_team_label_for_day tasks d = Except.ok lab := by
  obtain ⟨us, hok⟩ := teamUsedInts_ok_of_tok (tasks.filter (fun t => t.work_date = d)) h
  refine ⟨mkTeamLabel (firstFree us), ?_⟩
  unfold next_team_label_for_day
  rw [hok]

/-- Claim C2 witness: a day mixing a null label, a foreign-format label and a
well-formed label returns normally. -/
theorem c2_label_tolerance_witness :
    ∃ lab : Str,
      next_team_label_for_day
        [⟨1, 0, "Dach".toList, none, none⟩,
         ⟨2, 0, "Okna".toList, none, some ("Brygada A".toList)⟩,
         ⟨3, 0, "Mur".toList, none, some ("Zespół 2".toList)⟩] 0 =
        Except.ok lab :=
  c2_label_tolerance
    [⟨1, 0, "Dach".toList, none, none⟩,
     ⟨2, 0, "Okna".toList, none, some ("Brygada A".toList)⟩,
     ⟨3, 0, "Mur".toList, none, some ("Zespół 2".toList)⟩] 0 (by decide)

end Kal
